import Mathlib

/-!
Verification of the AI-Song-Detector backend core against its design spec.

The Python source is shallowly embedded over exact rationals:
* `audio_analyzer.py` : `lower_hull`, `max_normalize` (the fakeprint pipeline tail);
* `classifier.py`     : `AIDetector._compute_heuristic_prediction` (the heuristic
  scorer), `AIDetector.__init__` / `load_model` (model loading);
* `app.py`            : `batch_analyze` (batch endpoint result list).

Numpy floats are modelled by `ℚ`; `np.std` results (the only square roots in the
code) enter the embedding as explicit parameters, constrained where a claim
needs them.  Fallible Python code (IndexError, pickle errors) is modelled with
`Option` / `Except`.
-/

namespace Detector

/-- Minimum of a nonempty list, `0` on `[]` (models `np.min` on nonempty input). -/
def listMin : List ℚ → ℚ
  | [] => 0
  | [a] => a
  | a :: b :: l => min a (listMin (b :: l))

/-- Maximum of a nonempty list, `0` on `[]` (models `np.max` on nonempty input). -/
def listMax : List ℚ → ℚ
  | [] => 0
  | [a] => a
  | a :: b :: l => max a (listMax (b :: l))

/-- Index of the first occurrence of the minimum (models `np.argmin`). -/
def argmin : List ℚ → ℕ
  | [] => 0
  | [_] => 0
  | a :: b :: l => if a ≤ listMin (b :: l) then 0 else argmin (b :: l) + 1

theorem listMin_le_mem : ∀ (l : List ℚ), ∀ a ∈ l, listMin l ≤ a := by
  intro l
  induction l with
  | nil => intro a ha; cases ha
  | cons x xs ih =>
    cases xs with
    | nil =>
      intro a ha
      rcases List.mem_singleton.mp ha with rfl
      exact le_refl _
    | cons y ys =>
      intro a ha
      rcases List.mem_cons.mp ha with rfl | h
      · exact min_le_left _ _
      · exact le_trans (min_le_right _ _) (ih a h)

theorem le_listMax_of_mem : ∀ (l : List ℚ), ∀ a ∈ l, a ≤ listMax l := by
  intro l
  induction l with
  | nil => intro a ha; cases ha
  | cons x xs ih =>
    cases xs with
    | nil =>
      intro a ha
      rcases List.mem_singleton.mp ha with rfl
      exact le_refl _
    | cons y ys =>
      intro a ha
      rcases List.mem_cons.mp ha with rfl | h
      · exact le_max_left _ _
      · exact le_trans (ih a h) (le_max_right _ _)

theorem listMax_mem : ∀ (l : List ℚ), l ≠ [] → listMax l ∈ l := by
  intro l
  induction l with
  | nil => intro h; cases h rfl
  | cons x xs ih =>
    cases xs with
    | nil => intro _; simp [listMax]
    | cons y ys =>
      intro _
      show max x (listMax (y :: ys)) ∈ x :: y :: ys
      rcases max_choice x (listMax (y :: ys)) with h | h
      · rw [h]; exact List.mem_cons_self _ _
      · rw [h]; exact List.mem_cons_of_mem _ (ih (by simp))

theorem argmin_lt_length : ∀ (l : List ℚ), l ≠ [] → argmin l < l.length := by
  intro l
  induction l with
  | nil => intro h; cases h rfl
  | cons x xs ih =>
    cases xs with
    | nil => intro _; simp [argmin]
    | cons y ys =>
      intro _
      show (if x ≤ listMin (y :: ys) then 0 else argmin (y :: ys) + 1) < _
      by_cases hx : x ≤ listMin (y :: ys)
      · rw [if_pos hx]; exact Nat.succ_pos _
      · rw [if_neg hx]
        have := ih (by simp)
        simpa [Nat.succ_lt_succ_iff] using this

theorem getD_argmin : ∀ (l : List ℚ), l ≠ [] → l.getD (argmin l) 0 = listMin l := by
  intro l
  induction l with
  | nil => intro h; cases h rfl
  | cons x xs ih =>
    cases xs with
    | nil => intro _; simp [argmin, listMin]
    | cons y ys =>
      intro _
      by_cases hx : x ≤ listMin (y :: ys)
      · have h1 : argmin (x :: y :: ys) = 0 := by simp [argmin, hx]
        have h2 : listMin (x :: y :: ys) = x := min_eq_left hx
        rw [h1, h2]; rfl
      · have h1 : argmin (x :: y :: ys) = argmin (y :: ys) + 1 := by simp [argmin, hx]
        have h2 : listMin (x :: y :: ys) = listMin (y :: ys) :=
          min_eq_right (le_of_lt (lt_of_not_le hx))
        rw [h1, h2]
        show (y :: ys).getD (argmin (y :: ys)) 0 = _
        exact ih (by simp)

theorem argmin_first : ∀ (l : List ℚ), ∀ j, j < argmin l → listMin l < l.getD j 0 := by
  intro l
  induction l with
  | nil => intro j hj; simp [argmin] at hj
  | cons x xs ih =>
    cases xs with
    | nil => intro j hj; simp [argmin] at hj
    | cons y ys =>
      intro j hj
      by_cases hx : x ≤ listMin (y :: ys)
      · simp [argmin, hx] at hj
      · have h1 : argmin (x :: y :: ys) = argmin (y :: ys) + 1 := by simp [argmin, hx]
        have h2 : listMin (x :: y :: ys) = listMin (y :: ys) :=
          min_eq_right (le_of_lt (lt_of_not_le hx))
        rw [h1] at hj
        cases j with
        | zero =>
          rw [h2]
          exact lt_of_not_le hx
        | succ j =>
          rw [h2]
          exact ih j (Nat.lt_of_succ_lt_succ hj)

/-- The sliding patch `x[i:i+area]` of `AudioAnalyzer.lower_hull`. -/
def window (x : List ℚ) (area i : ℕ) : List ℚ := (x.drop i).take area

/-- Absolute index of the patch minimum: `abs_idx = rel_idx + i`. -/
def hullIdx (x : List ℚ) (area i : ℕ) : ℕ := argmin (window x area i) + i

/-- Loop body of `AudioAnalyzer.lower_hull`: record the patch-minimum index and
value unless the index was already recorded. -/
def hullStep (x : List ℚ) (area : ℕ) (p : List ℕ × List ℚ) (i : ℕ) : List ℕ × List ℚ :=
  let patch := (x.drop i).take area
  let a := argmin patch + i
  if a ∈ p.1 then p else (p.1 ++ [a], p.2 ++ [patch.getD (argmin patch) 0])

/-- The `for i in range(n)` loop of `AudioAnalyzer.lower_hull`, with
`n = len(x) - area + 1` python iterations. -/
def hullLoop (x : List ℚ) (area n : ℕ) : List ℕ × List ℚ :=
  (List.range n).foldl (hullStep x area) ([], [])

/-- `AudioAnalyzer.lower_hull`.  Returns `none` where Python raises: when the
scan loop records nothing (curve shorter than the window), `idx[0]` raises
IndexError.  Afterwards index `0` and the last index are force-included with
their curve values. -/
def lower_hull (x : List ℚ) (area : ℕ) : Option (List ℕ × List ℚ) :=
  let p := hullLoop x area (x.length + 1 - area)
  if p.1 = [] then none
  else
    let q := if p.1.getD 0 0 ≠ 0 then (0 :: p.1, x.getD 0 0 :: p.2) else p
    some (if q.1.getLastD 0 ≠ x.length - 1
          then (q.1 ++ [x.length - 1], q.2 ++ [x.getD (x.length - 1) 0]) else q)

/-- `AudioAnalyzer.max_normalize`: clip to `[0, max_db]`, divide by
`1e-6 + max(clipped)`. -/
def max_normalize (x : List ℚ) (max_db : ℚ := 5) : List ℚ :=
  let c := x.map (fun v => min (max v 0) max_db)
  c.map (fun v => v / (1e-6 + listMax c))

theorem window_length (x : List ℚ) (area i : ℕ) (h : i + area ≤ x.length) :
    (window x area i).length = area := by
  simp [window, List.length_take, List.length_drop]
  omega

theorem window_getD (x : List ℚ) (area i j : ℕ) (harea : j < area)
    (h : i + j < x.length) : (window x area i).getD j 0 = x.getD (i + j) 0 := by
  have hd : j < (x.drop i).length := by
    simp [List.length_drop]; omega
  have h1 : (window x area i).getD j 0 = ((x.drop i).take area).getD j 0 := rfl
  rw [h1]
  have h2 : j < ((x.drop i).take area).length := by
    simp [List.length_take]; omega
  rw [List.getD_eq_getElem _ _ h2, List.getD_eq_getElem _ _ h]
  rw [List.getElem_take]
  exact List.getElem_drop _

theorem hullIdx_lt_length (x : List ℚ) (area i : ℕ) (ha : 1 ≤ area)
    (h : i + area ≤ x.length) : hullIdx x area i < x.length := by
  have hne : window x area i ≠ [] := by
    intro hcon
    have := window_length x area i h
    rw [hcon] at this
    simp at this
    omega
  have := argmin_lt_length _ hne
  rw [window_length x area i h] at this
  unfold hullIdx
  omega

theorem hullIdx_step_mono (x : List ℚ) (area i : ℕ) (ha : 1 ≤ area)
    (h : i + 1 + area ≤ x.length) : hullIdx x area i ≤ hullIdx x area (i + 1) := by
  have hwi : i + area ≤ x.length := by omega
  have hlen : (window x area i).length = area := window_length x area i hwi
  have hlen1 : (window x area (i + 1)).length = area := window_length x area (i + 1) h
  have hne : window x area i ≠ [] := by
    intro hcon; rw [hcon] at hlen; simp at hlen; omega
  have hne1 : window x area (i + 1) ≠ [] := by
    intro hcon; rw [hcon] at hlen1; simp at hlen1; omega
  have hrlt : argmin (window x area i) < area := by
    have := argmin_lt_length _ hne; omega
  have hrlt1 : argmin (window x area (i + 1)) < area := by
    have := argmin_lt_length _ hne1; omega
  unfold hullIdx
  rcases Nat.eq_zero_or_pos (argmin (window x area i)) with hz | hpos
  · omega
  -- write r = rr + 1
  obtain ⟨rr, hrr⟩ : ∃ rr, argmin (window x area i) = rr + 1 :=
    ⟨argmin (window x area i) - 1, by omega⟩
  -- it suffices to show argmin of the next window is at least rr
  have key : rr ≤ argmin (window x area (i + 1)) := by
    by_contra hlt
    push_neg at hlt
    -- the patch value at the next window position rr is the old minimum
    have hmem : (window x area (i + 1)).getD rr 0 = x.getD (i + 1 + rr) 0 :=
      window_getD x area (i + 1) rr (by omega) (by omega)
    have hval : x.getD (i + 1 + rr) 0 = listMin (window x area i) := by
      have := getD_argmin (window x area i) hne
      rw [hrr] at this
      have hgd : (window x area i).getD (rr + 1) 0 = x.getD (i + (rr + 1)) 0 :=
        window_getD x area i (rr + 1) (by omega) (by omega)
      rw [hgd] at this
      have : x.getD (i + (rr + 1)) 0 = listMin (window x area i) := this
      rw [show i + 1 + rr = i + (rr + 1) by omega]
      exact this
    -- so the next window's minimum is at most the old minimum
    have hminle : listMin (window x area (i + 1)) ≤ listMin (window x area i) := by
      have hm : (window x area (i + 1)).getD rr 0 ∈ window x area (i + 1) := by
        have hl : rr < (window x area (i + 1)).length := by omega
        rw [List.getD_eq_getElem _ _ hl]
        exact List.getElem_mem _
      have := listMin_le_mem _ _ hm
      rw [hmem, hval] at this
      exact this
    -- but the next-window entry at the (smaller) argmin position sits strictly
    -- before the old argmin inside the old window, hence is strictly larger
    have hstrict : listMin (window x area i) <
        (window x area i).getD (1 + argmin (window x area (i + 1))) 0 := by
      apply argmin_first
      omega
    have heq : (window x area i).getD (1 + argmin (window x area (i + 1))) 0 =
        (window x area (i + 1)).getD (argmin (window x area (i + 1))) 0 := by
      rw [window_getD x area i (1 + argmin (window x area (i + 1))) (by omega) (by omega)]
      rw [window_getD x area (i + 1) (argmin (window x area (i + 1))) (by omega) (by omega)]
      congr 1
      omega
    rw [heq, getD_argmin _ hne1] at hstrict
    exact absurd (lt_of_le_of_lt hminle hstrict) (lt_irrefl _)
  omega

theorem hullIdx_mono (x : List ℚ) (area : ℕ) (ha : 1 ≤ area) :
    ∀ i j, i ≤ j → j + area ≤ x.length → hullIdx x area i ≤ hullIdx x area j := by
  intro i j
  induction j with
  | zero => intro hij _; interval_cases i; exact le_refl _
  | succ j ih =>
    intro hij hlen
    rcases Nat.eq_or_lt_of_le hij with rfl | hlt
    · exact le_refl _
    · have h1 : hullIdx x area i ≤ hullIdx x area j := ih (by omega) (by omega)
      have h2 : hullIdx x area j ≤ hullIdx x area (j + 1) :=
        hullIdx_step_mono x area j ha (by omega)
      exact le_trans h1 h2

theorem getD_append_left {α : Type} (l l' : List α) (d : α) (n : ℕ)
    (h : n < l.length) : (l ++ l').getD n d = l.getD n d := by
  rw [List.getD_eq_getElem _ _ (by simp; omega), List.getD_eq_getElem _ _ h]
  exact List.getElem_append_left h

theorem getD_append_at_length {α : Type} (l : List α) (b d : α) :
    (l ++ [b]).getD l.length d = b := by
  rw [List.getD_eq_getElem _ _ (by simp)]
  rw [List.getElem_append_right (le_refl _)]
  simp

theorem getLastD_append_single {α : Type} (l : List α) (b d : α) :
    (l ++ [b]).getLastD d = b := by
  induction l with
  | nil => rfl
  | cons x xs ih =>
    cases xs with
    | nil => rfl
    | cons y ys => simpa using ih

theorem getLastD_mem {α : Type} (l : List α) (d : α) (h : l ≠ []) :
    l.getLastD d ∈ l := by
  induction l with
  | nil => cases h rfl
  | cons x xs ih =>
    cases xs with
    | nil => simp [List.getLastD]
    | cons y ys =>
      have := ih (by simp)
      simp only [List.getLastD] at this ⊢
      exact List.mem_cons_of_mem _ this

theorem sorted_le_getLastD (l : List ℕ) (d : ℕ) (hs : l.Sorted (· < ·)) :
    ∀ e ∈ l, e ≤ l.getLastD d := by
  induction l with
  | nil => intro e he; cases he
  | cons x xs ih =>
    intro e he
    cases xs with
    | nil =>
      rcases List.mem_singleton.mp he with rfl
      exact le_refl _
    | cons y ys =>
      have hs2 : (y :: ys).Sorted (· < ·) := (List.sorted_cons.mp hs).2
      have hx : ∀ b ∈ y :: ys, x < b := (List.sorted_cons.mp hs).1
      show e ≤ (y :: ys).getLastD x
      have hlast : (y :: ys).getLastD x = (y :: ys).getLastD d := by
        cases ys <;> rfl
      rcases List.mem_cons.mp he with rfl | h
      · rw [hlast]
        have hm := getLastD_mem (y :: ys) d (by simp)
        exact le_of_lt (hx _ hm)
      · rw [hlast]
        exact ih hs2 e h

theorem hullLoop_succ (x : List ℚ) (area k : ℕ) :
    hullLoop x area (k + 1) = hullStep x area (hullLoop x area k) k := by
  unfold hullLoop
  rw [List.range_succ, List.foldl_append]
  rfl

theorem hullStep_eq (x : List ℚ) (area k : ℕ) (ha : 1 ≤ area)
    (h : k + area ≤ x.length) (p : List ℕ × List ℚ) :
    hullStep x area p k =
      if hullIdx x area k ∈ p.1 then p
      else (p.1 ++ [hullIdx x area k], p.2 ++ [x.getD (hullIdx x area k) 0]) := by
  have hne : window x area k ≠ [] := by
    intro hcon
    have := window_length x area k h
    rw [hcon] at this; simp at this; omega
  have hrlt : argmin (window x area k) < area := by
    have := argmin_lt_length _ hne
    rw [window_length x area k h] at this
    exact this
  have hval : (window x area k).getD (argmin (window x area k)) 0 =
      x.getD (hullIdx x area k) 0 := by
    rw [window_getD x area k (argmin (window x area k)) hrlt (by omega)]
    congr 1
    unfold hullIdx
    omega
  unfold hullStep
  show (if argmin (window x area k) + k ∈ p.1 then p
        else (p.1 ++ [argmin (window x area k) + k],
              p.2 ++ [(window x area k).getD (argmin (window x area k)) 0])) = _
  rw [hval]
  rfl

theorem hullLoop_inv (x : List ℚ) (area : ℕ) (ha : 1 ≤ area) :
    ∀ k, k + area ≤ x.length + 1 →
    (hullLoop x area k).1.Sorted (· < ·) ∧
    (∀ e ∈ (hullLoop x area k).1, ∃ j, j < k ∧ e = hullIdx x area j) ∧
    (∀ j, j < k → hullIdx x area j ∈ (hullLoop x area k).1) ∧
    (hullLoop x area k).2.length = (hullLoop x area k).1.length ∧
    (∀ t, t < (hullLoop x area k).1.length →
      (hullLoop x area k).2.getD t 0 = x.getD ((hullLoop x area k).1.getD t 0) 0) ∧
    (1 ≤ k → (hullLoop x area k).1.getD 0 0 = hullIdx x area 0) := by
  intro k
  induction k with
  | zero =>
    intro _
    refine ⟨List.sorted_nil, ?_, ?_, rfl, ?_, ?_⟩
    · intro e he; cases he
    · intro j hj; omega
    · intro t ht; simp [hullLoop] at ht
    · intro h1; omega
  | succ k ih =>
    intro hk
    have hklen : k + area ≤ x.length := by omega
    obtain ⟨ihs, ihsrc, ihall, ihlen, ihval, ihhead⟩ := ih (by omega)
    set p := hullLoop x area k with hp
    have hstep : hullLoop x area (k + 1) =
        if hullIdx x area k ∈ p.1 then p
        else (p.1 ++ [hullIdx x area k], p.2 ++ [x.getD (hullIdx x area k) 0]) := by
      rw [hullLoop_succ, hullStep_eq x area k ha hklen]
    by_cases hmem : hullIdx x area k ∈ p.1
    · rw [hstep, if_pos hmem]
      have hk1 : 1 ≤ k := by
        by_contra hcon
        push_neg at hcon
        interval_cases k
        simp [hp, hullLoop] at hmem
      refine ⟨ihs, ?_, ?_, ihlen, ihval, fun _ => ihhead hk1⟩
      · intro e he
        obtain ⟨j, hj, hje⟩ := ihsrc e he
        exact ⟨j, by omega, hje⟩
      · intro j hj
        rcases Nat.lt_succ_iff_lt_or_eq.mp hj with h | rfl
        · exact ihall j h
        · exact hmem
    · rw [hstep, if_neg hmem]
      have hlt_new : ∀ e ∈ p.1, e < hullIdx x area k := by
        intro e he
        obtain ⟨j, hj, rfl⟩ := ihsrc e he
        have hle := hullIdx_mono x area ha j k (by omega) hklen
        have hne : hullIdx x area j ≠ hullIdx x area k := by
          intro hcon
          rw [hcon] at he
          exact hmem he
        omega
      refine ⟨?_, ?_, ?_, ?_, ?_, ?_⟩
      · rw [List.Sorted, List.pairwise_append]
        refine ⟨ihs, List.pairwise_singleton _ _, ?_⟩
        intro e he b hb
        rcases List.mem_singleton.mp hb with rfl
        exact hlt_new e he
      · intro e he
        rcases List.mem_append.mp he with h | h
        · obtain ⟨j, hj, hje⟩ := ihsrc e h
          exact ⟨j, by omega, hje⟩
        · rcases List.mem_singleton.mp h with rfl
          exact ⟨k, by omega, rfl⟩
      · intro j hj
        rcases Nat.lt_succ_iff_lt_or_eq.mp hj with h | rfl
        · exact List.mem_append_left _ (ihall j h)
        · exact List.mem_append_right _ (List.mem_singleton_self _)
      · simp [ihlen]
      · intro t ht
        simp only [List.length_append, List.length_singleton] at ht
        show (p.2 ++ [x.getD (hullIdx x area k) 0]).getD t 0 =
            x.getD ((p.1 ++ [hullIdx x area k]).getD t 0) 0
        rcases Nat.lt_succ_iff_lt_or_eq.mp ht with h | rfl
        · rw [getD_append_left _ _ _ _ (by omega), getD_append_left _ _ _ _ h]
          exact ihval t h
        · have h2 : (p.2 ++ [x.getD (hullIdx x area k) 0]).getD p.1.length 0 =
              x.getD (hullIdx x area k) 0 := by
            rw [← ihlen]
            exact getD_append_at_length _ _ _
          rw [h2, getD_append_at_length]
      · intro _
        show (p.1 ++ [hullIdx x area k]).getD 0 0 = hullIdx x area 0
        rcases Nat.eq_zero_or_pos k with rfl | hk1
        · have hnil : p.1 = [] := rfl
          rw [hnil]
          rfl
        · have hne : p.1 ≠ [] := List.ne_nil_of_mem (ihall 0 hk1)
          rw [getD_append_left _ _ _ _ (List.length_pos.mpr hne)]
          exact ihhead hk1

theorem lower_hull_spec (x : List ℚ) (area : ℕ) (ha : 1 ≤ area) (hlen : area ≤ x.length) :
    ∃ idx hull,
      lower_hull x area = some (idx, hull) ∧
      idx.Sorted (· < ·) ∧ 0 ∈ idx ∧ x.length - 1 ∈ idx ∧
      hull.length = idx.length ∧
      (∀ t, t < idx.length → hull.getD t 0 = x.getD (idx.getD t 0) 0) ∧
      (∀ e ∈ idx, e < x.length) := by
  have hn1 : 1 ≤ x.length + 1 - area := by omega
  obtain ⟨hs, hsrc, hall, hl, hv, hhead⟩ :=
    hullLoop_inv x area ha (x.length + 1 - area) (by omega)
  set p := hullLoop x area (x.length + 1 - area) with hpdef
  have hne : p.1 ≠ [] := List.ne_nil_of_mem (hall 0 hn1)
  have hbound : ∀ e ∈ p.1, e < x.length := by
    intro e he
    obtain ⟨j, hj, rfl⟩ := hsrc e he
    exact hullIdx_lt_length x area j ha (by omega)
  have hge : ∀ e ∈ p.1, p.1.getD 0 0 ≤ e := by
    intro e he
    obtain ⟨j, hj, rfl⟩ := hsrc e he
    rw [hhead hn1]
    exact hullIdx_mono x area ha 0 j (by omega) (by omega)
  set q := if p.1.getD 0 0 ≠ 0 then (0 :: p.1, x.getD 0 0 :: p.2) else p with hqdef
  have hq_sorted : q.1.Sorted (· < ·) := by
    rw [hqdef]; split
    · rename_i h
      show (0 :: p.1).Sorted (· < ·)
      rw [List.sorted_cons]
      refine ⟨?_, hs⟩
      intro b hb
      have := hge b hb
      omega
    · exact hs
  have hq_zero : 0 ∈ q.1 := by
    rw [hqdef]; split
    · exact List.mem_cons_self _ _
    · rename_i h
      push_neg at h
      have h0 : p.1.getD 0 0 ∈ p.1 := by
        rw [List.getD_eq_getElem _ _ (List.length_pos.mpr hne)]
        exact List.getElem_mem _
      rw [← h]
      exact h0
  have hq_len : q.2.length = q.1.length := by
    rw [hqdef]; split
    · simpa using hl
    · exact hl
  have hq_val : ∀ t, t < q.1.length → q.2.getD t 0 = x.getD (q.1.getD t 0) 0 := by
    rw [hqdef]; split
    · intro t ht
      cases t with
      | zero => rfl
      | succ t =>
        show p.2.getD t 0 = x.getD (p.1.getD t 0) 0
        exact hv t (by simpa using ht)
    · exact hv
  have hq_bound : ∀ e ∈ q.1, e < x.length := by
    rw [hqdef]; split
    · intro e he
      rcases List.mem_cons.mp he with rfl | h2
      · omega
      · exact hbound e h2
    · exact hbound
  have hq_ne : q.1 ≠ [] := List.ne_nil_of_mem hq_zero
  set r := if q.1.getLastD 0 ≠ x.length - 1
      then (q.1 ++ [x.length - 1], q.2 ++ [x.getD (x.length - 1) 0]) else q with hrdef
  have hlastmem : q.1.getLastD 0 ∈ q.1 := getLastD_mem _ _ hq_ne
  have hr_sorted : r.1.Sorted (· < ·) := by
    rw [hrdef]; split
    · rename_i h
      show (q.1 ++ [x.length - 1]).Sorted (· < ·)
      rw [List.Sorted, List.pairwise_append]
      refine ⟨hq_sorted, List.pairwise_singleton _ _, ?_⟩
      intro e he b hb
      rcases List.mem_singleton.mp hb with rfl
      have h1 := sorted_le_getLastD q.1 0 hq_sorted e he
      have h2 := hq_bound _ hlastmem
      omega
    · exact hq_sorted
  have hr_zero : 0 ∈ r.1 := by
    rw [hrdef]; split
    · exact List.mem_append_left _ hq_zero
    · exact hq_zero
  have hr_last : x.length - 1 ∈ r.1 := by
    rw [hrdef]; split
    · exact List.mem_append_right _ (List.mem_singleton_self _)
    · rename_i h
      push_neg at h
      rw [← h]
      exact hlastmem
  have hr_len : r.2.length = r.1.length := by
    rw [hrdef]; split
    · simpa using hq_len
    · exact hq_len
  have hr_val : ∀ t, t < r.1.length → r.2.getD t 0 = x.getD (r.1.getD t 0) 0 := by
    rw [hrdef]; split
    · intro t ht
      show (q.2 ++ [x.getD (x.length - 1) 0]).getD t 0 =
          x.getD ((q.1 ++ [x.length - 1]).getD t 0) 0
      simp only [List.length_append, List.length_singleton] at ht
      rcases Nat.lt_succ_iff_lt_or_eq.mp ht with h | rfl
      · rw [getD_append_left _ _ _ _ (by omega), getD_append_left _ _ _ _ h]
        exact hq_val t h
      · have h2 : (q.2 ++ [x.getD (x.length - 1) 0]).getD q.1.length 0 =
            x.getD (x.length - 1) 0 := by
          rw [← hq_len]
          exact getD_append_at_length _ _ _
        rw [h2, getD_append_at_length]
    · exact hq_val
  have hr_bound : ∀ e ∈ r.1, e < x.length := by
    rw [hrdef]; split
    · intro e he
      rcases List.mem_append.mp he with h | h
      · exact hq_bound e h
      · rcases List.mem_singleton.mp h with rfl
        omega
    · exact hq_bound
  refine ⟨r.1, r.2, ?_, hr_sorted, hr_zero, hr_last, hr_len, hr_val, hr_bound⟩
  show lower_hull x area = some (r.1, r.2)
  have heta : (r.1, r.2) = r := rfl
  rw [heta]
  simp only [lower_hull]
  rw [← hpdef, if_neg hne, ← hqdef, ← hrdef]

theorem lower_hull_short (x : List ℚ) (area : ℕ) (h : x.length < area) :
    lower_hull x area = none := by
  have h0 : x.length + 1 - area = 0 := by omega
  simp only [lower_hull, h0]
  rfl

theorem clip_mem_nonneg (v : ℚ) : 0 ≤ min (max v 0) 5 :=
  le_min (le_max_right v 0) (by norm_num)

theorem listMax_map_div (c : List ℚ) (D : ℚ) (hD : 0 < D) :
    listMax (c.map (fun v => v / D)) = listMax c / D := by
  induction c with
  | nil => simp [listMax]
  | cons a l ih =>
    cases l with
    | nil => rfl
    | cons b m =>
      show max (a / D) (listMax ((b :: m).map (fun v => v / D))) = max a (listMax (b :: m)) / D
      rw [ih]
      rcases le_total a (listMax (b :: m)) with h | h
      · rw [max_eq_right h, max_eq_right ((div_le_div_right hD).mpr h)]
      · rw [max_eq_left h, max_eq_left ((div_le_div_right hD).mpr h)]

/-- Elements of `max_normalize` output lie in `[0, 1]` (the code clips to
`[0, max_db]` and divides by `1e-6 + max`). -/
theorem max_normalize_elem_bounds (x : List ℚ) :
    ∀ e ∈ max_normalize x 5, 0 ≤ e ∧ e ≤ 1 := by
  intro e he
  simp only [max_normalize, List.mem_map] at he
  obtain ⟨v, hv, rfl⟩ := he
  obtain ⟨w, hw, rfl⟩ := hv
  set c := x.map (fun v => min (max v 0) 5) with hc
  have hmemc : min (max w 0) 5 ∈ c := List.mem_map.mpr ⟨w, hw, rfl⟩
  have h0 : 0 ≤ min (max w 0) 5 := clip_mem_nonneg w
  have hM : min (max w 0) 5 ≤ listMax c := le_listMax_of_mem c _ hmemc
  have hMnn : 0 ≤ listMax c := le_trans h0 hM
  have hD : 0 < 1e-6 + listMax c := by
    have : (0 : ℚ) < 1e-6 := by norm_num
    linarith
  constructor
  · exact div_nonneg h0 (le_of_lt hD)
  · rw [div_le_one hD]
    linarith

/-- All-nonpositive input (in particular the all-zero residual of silence)
normalizes to the all-zero vector. -/
theorem max_normalize_zero (x : List ℚ) (h : ∀ v ∈ x, v ≤ 0) :
    max_normalize x 5 = List.replicate x.length 0 := by
  have hcz : x.map (fun v => min (max v 0) 5) = List.replicate x.length 0 := by
    rw [List.eq_replicate]
    refine ⟨by simp, ?_⟩
    intro b hb
    obtain ⟨w, hw, rfl⟩ := List.mem_map.mp hb
    have := h w hw
    rw [max_eq_right this]
    norm_num
  simp only [max_normalize, hcz]
  rw [List.eq_replicate]
  refine ⟨by simp, ?_⟩
  intro b hb
  obtain ⟨w, hw, rfl⟩ := List.mem_map.mp hb
  rcases List.eq_of_mem_replicate hw with rfl
  simp

/-- With a positive residual present, the output maximum is
`M / (1e-6 + M) < 1` where `M` is the maximum clipped residual. -/
theorem max_normalize_max_lt_one (x : List ℚ) (hx : x ≠ []) (h : ∃ v ∈ x, 0 < v) :
    listMax (max_normalize x 5) =
      listMax (x.map fun v => min (max v 0) 5) /
        (1e-6 + listMax (x.map fun v => min (max v 0) 5)) ∧
    listMax (max_normalize x 5) < 1 := by
  obtain ⟨v, hv, hvpos⟩ := h
  set c := x.map (fun v => min (max v 0) 5) with hc
  have hmemc : min (max v 0) 5 ∈ c := List.mem_map.mpr ⟨v, hv, rfl⟩
  have hclip_pos : 0 < min (max v 0) 5 :=
    lt_min (lt_of_lt_of_le hvpos (le_max_left v 0)) (by norm_num)
  have hMpos : 0 < listMax c := lt_of_lt_of_le hclip_pos (le_listMax_of_mem c _ hmemc)
  have hD : 0 < 1e-6 + listMax c := by
    have : (0 : ℚ) < 1e-6 := by norm_num
    linarith
  have heq : listMax (max_normalize x 5) = listMax c / (1e-6 + listMax c) := by
    show listMax (c.map (fun w => w / (1e-6 + listMax c))) = _
    exact listMax_map_div c _ hD
  refine ⟨heq, ?_⟩
  rw [heq, div_lt_one hD]
  have : (0 : ℚ) < 1e-6 := by norm_num
  linarith

/-- C1 (claim as stated is false; the nearby truth): every element of the
fakeprint lies in `[0,1]`; an all-nonpositive residual gives the all-zero
fakeprint; otherwise the maximum equals `M / (1e-6 + M)` with `M` the maximum
clipped residual, which is strictly less than `1` (never exactly `1`). -/
theorem fakeprint_range_amended (x : List ℚ) (hx : x ≠ []) :
    (∀ e ∈ max_normalize x 5, 0 ≤ e ∧ e ≤ 1) ∧
    ((∀ v ∈ x, v ≤ 0) → max_normalize x 5 = List.replicate x.length 0) ∧
    ((∃ v ∈ x, 0 < v) →
      listMax (max_normalize x 5) =
        listMax (x.map fun v => min (max v 0) 5) /
          (1e-6 + listMax (x.map fun v => min (max v 0) 5)) ∧
      listMax (max_normalize x 5) < 1) :=
  ⟨max_normalize_elem_bounds x, max_normalize_zero x, max_normalize_max_lt_one x hx⟩

/-- Witness for `fakeprint_range_amended` at the concrete residual `[1]`. -/
theorem fakeprint_range_amended_witness :
    ([(1 : ℚ)] ≠ []) ∧ listMax (max_normalize [(1 : ℚ)] 5) < 1 :=
  ⟨by simp, ((fakeprint_range_amended [(1 : ℚ)] (by simp)).2.2
      ⟨1, List.mem_singleton_self 1, one_pos⟩).2⟩

/-- C1 counterexample: the residual `[1]` is not all-zero, yet the maximum of
its fakeprint is `1/(1 + 1e-6) ≠ 1`, refuting the claimed invariant
"max element = 1 unless all residuals were zero". -/
theorem fakeprint_max_not_one_counterexample :
    (∃ v ∈ [(1 : ℚ)], 0 < v) ∧ listMax (max_normalize [(1 : ℚ)] 5) ≠ 1 := by
  refine ⟨⟨1, List.mem_singleton_self 1, one_pos⟩, ?_⟩
  show ((1 : ℚ) / (1e-6 + 1)) ≠ 1
  norm_num

/-- C3 (claim as stated is false; the nearby truth): an all-zero residual
(silence) does yield the all-zero fakeprint, but a band-limited curve shorter
than the hull window `AREA = 10` makes `lower_hull` raise an IndexError
(modelled as `none`) instead of returning a neutral fakeprint. -/
theorem degenerate_signal_amended :
    (∀ x : List ℚ, (∀ v ∈ x, v = 0) → max_normalize x 5 = List.replicate x.length 0) ∧
    (∀ x : List ℚ, x.length < 10 → lower_hull x 10 = none) := by
  constructor
  · intro x h
    exact max_normalize_zero x (fun v hv => le_of_eq (h v hv))
  · intro x h
    exact lower_hull_short x 10 h

/-- Witness for `degenerate_signal_amended` at the all-zero residual `[0]` and
the short curve `[0, 0, 0]`. -/
theorem degenerate_signal_amended_witness :
    max_normalize [(0 : ℚ)] 5 = List.replicate 1 0 ∧
    lower_hull [(0 : ℚ), 0, 0] 10 = none :=
  ⟨degenerate_signal_amended.1 [(0 : ℚ)] (by intro v hv; simpa using hv),
   degenerate_signal_amended.2 [(0 : ℚ), 0, 0] (by simp)⟩

/-- C3 counterexample: the three-sample curve `[0,0,0]` is shorter than the
hull window; the scan loop records nothing and `idx[0]` raises, so the
pipeline errors instead of returning a zero/neutral fakeprint. -/
theorem short_curve_raises_counterexample :
    ([(0 : ℚ), 0, 0].length < 10) ∧ lower_hull [(0 : ℚ), 0, 0] 10 = none :=
  ⟨by simp, lower_hull_short _ 10 (by simp)⟩

/-- C4: for every input curve of length at least `AREA = 10`, the hull indices
are strictly increasing and contain index `0` and the final index. -/
theorem hull_indices_increasing_with_anchors (x : List ℚ) (h : 10 ≤ x.length) :
    ∃ idx hull, lower_hull x 10 = some (idx, hull) ∧
      idx.Sorted (· < ·) ∧ 0 ∈ idx ∧ x.length - 1 ∈ idx := by
  obtain ⟨idx, hull, h1, h2, h3, h4, _, _, _⟩ := lower_hull_spec x 10 (by norm_num) h
  exact ⟨idx, hull, h1, h2, h3, h4⟩

/-- Witness for `hull_indices_increasing_with_anchors` at a concrete
length-10 curve. -/
theorem hull_indices_witness :
    10 ≤ (List.replicate 10 (0 : ℚ)).length ∧
    ∃ idx hull, lower_hull (List.replicate 10 (0 : ℚ)) 10 = some (idx, hull) ∧
      idx.Sorted (· < ·) ∧ 0 ∈ idx ∧ (List.replicate 10 (0 : ℚ)).length - 1 ∈ idx :=
  ⟨by simp, hull_indices_increasing_with_anchors _ (by simp)⟩

/-- C10: every (index, value) pair of the returned hull satisfies
`value = curve[index]`, anchors included. -/
theorem hull_values_sampled_from_curve (x : List ℚ) (h : 10 ≤ x.length)
    (idx : List ℕ) (hull : List ℚ) (hh : lower_hull x 10 = some (idx, hull)) :
    hull.length = idx.length ∧
    ∀ t, t < idx.length → hull.getD t 0 = x.getD (idx.getD t 0) 0 := by
  obtain ⟨idx2, hull2, h1, _, _, _, h5, h6, _⟩ := lower_hull_spec x 10 (by norm_num) h
  rw [h1] at hh
  have hpair : idx2 = idx ∧ hull2 = hull := by
    have := Option.some.inj hh
    exact ⟨congrArg Prod.fst this, congrArg Prod.snd this⟩
  obtain ⟨rfl, rfl⟩ := hpair
  exact ⟨h5, h6⟩

/-- Witness for `hull_values_sampled_from_curve` at a concrete length-10
curve whose hull is `([0, 9], [0, 0])`. -/
theorem hull_values_witness :
    lower_hull (List.replicate 10 (0 : ℚ)) 10 = some ([0, 9], [0, 0]) ∧
    ([(0 : ℚ), 0]).length = ([0, 9] : List ℕ).length ∧
    ([(0 : ℚ), 0]).getD 1 0 =
      (List.replicate 10 (0 : ℚ)).getD (([0, 9] : List ℕ).getD 1 0) 0 := by
  refine ⟨by decide, ?_, ?_⟩
  · exact (hull_values_sampled_from_curve (List.replicate 10 0) (by simp) [0, 9] [0, 0]
      (by decide)).1
  · exact (hull_values_sampled_from_curve (List.replicate 10 0) (by simp) [0, 9] [0, 0]
      (by decide)).2 1 (by decide)

/-- Indices where the predicate holds, in order (models `np.where(cond)[0]`). -/
def idxWhere (p : ℚ → Bool) (l : List ℚ) : List ℕ :=
  (l.enum.filter (fun pr => p pr.2)).map Prod.fst

/-- Arithmetic mean; `0` on `[]` (as `np.nan_to_num(np.mean([]))`). -/
def listMean (l : List ℚ) : ℚ := l.sum / l.length

/-- Consecutive differences (models `np.diff` on a peak-index array). -/
def npDiff (l : List ℕ) : List ℚ :=
  (l.zip l.tail).map (fun p => (p.2 : ℚ) - (p.1 : ℚ))

/-- Linear-interpolation percentile (models `np.percentile(l, q)`). -/
def percentile (l : List ℚ) (q : ℚ) : ℚ :=
  let s := List.insertionSort (· ≤ ·) l
  let n := l.length
  if n = 0 then 0
  else
    let h : ℚ := ((n : ℚ) - 1) * q / 100
    let f : ℕ := (Int.floor h).toNat
    if f + 1 ≤ n - 1 then s.getD f 0 + (h - (f : ℚ)) * (s.getD (f + 1) 0 - s.getD f 0)
    else s.getD (n - 1) 0

/-- Raw autocorrelation of `z` at non-negative lag `k` (the folded positive-lag
half of `np.correlate(z, z, mode="full")`). -/
def autocorrAt (z : List ℚ) (k : ℕ) : ℚ :=
  ((z.zip (z.drop k)).map (fun p => p.1 * p.2)).sum

/-- The cv → regularity-score schedule of `_compute_heuristic_prediction`
(the four-branch piecewise map of §4.4). -/
def regularitySchedule (cv : ℚ) : ℚ :=
  if cv < 0.3 then 0.8 + (0.3 - cv) * 0.67
  else if cv < 0.5 then 0.5 + (0.5 - cv) * 1.5
  else if cv < 0.7 then 0.3 + (0.7 - cv) * 1.0
  else max 0 (0.3 - (cv - 0.7) * 0.5)

/-- The regularity analysis block: returns
`(peak_regularity_score, peak_spacing_variance, peak_spacing_cv)`.
`spacing_std` stands for the code's `float(np.std(peak_spacings))`. -/
def regularityBlock (peaks_medium : List ℕ) (spacing_std : ℚ) : ℚ × ℚ × ℚ :=
  if peaks_medium.length > 3 then
    let peak_spacings := npDiff peaks_medium
    let mean_spacing := listMean peak_spacings
    if mean_spacing > 0 then
      (regularitySchedule (spacing_std / mean_spacing), spacing_std,
        spacing_std / mean_spacing)
    else (0.5, spacing_std, 0)
  else (0, 0, 0)

/-- The kurtosis-like statistic:
`mean((x - mean)^4) / (std^4 + 1e-10)`; `fp_std` stands for the code's
`float(np.std(fakeprint))`. -/
def kurtosisOf (fp : List ℚ) (fp_std : ℚ) : ℚ :=
  listMean (fp.map (fun v => (v - listMean fp) ^ 4)) / (fp_std ^ 4 + 1e-10)

/-- The spectral-periodicity analysis: normalized zero-mean autocorrelation,
maximum over lags `2 .. min(50, n) - 1`. -/
def periodicityOf (fp : List ℚ) : ℚ :=
  if fp.length > 10 then
    let z := fp.map (fun v => v - listMean fp)
    if fp.length > 5 then
      let secondary := ((List.range (min 50 fp.length)).drop 2).map
        (fun k => autocorrAt z k / (autocorrAt z 0 + 1e-10))
      if secondary ≠ [] then listMax secondary else 0
    else 0
  else 0

/-- Scoring rule 1: medium-peak count scaled by the regularity multiplier. -/
def peakCountBucket (peak_count_medium : ℕ) (peak_regularity_score : ℚ) : ℚ :=
  let peak_regularity_multiplier := 1.0 + peak_regularity_score
  if 50 ≤ peak_count_medium ∧ peak_count_medium ≤ 150 then
    20 * peak_regularity_multiplier
  else if peak_count_medium < 50 then
    (peak_count_medium : ℚ) * 0.3 * peak_regularity_multiplier
  else (20 - min 20 (((peak_count_medium : ℚ) - 150) * 0.1)) * peak_regularity_multiplier

/-- Scoring rule 2: strong-peak count. -/
def strongPeakBucket (peak_count_high : ℕ) : ℚ :=
  if 5 ≤ peak_count_high ∧ peak_count_high ≤ 30 then 15
  else if peak_count_high < 5 then (peak_count_high : ℚ) * 3.0
  else 15 - min 10 (((peak_count_high : ℚ) - 30) * 0.2)

/-- Scoring rule 3: fakeprint mean intensity. -/
def meanBucket (fakeprint_mean : ℚ) : ℚ :=
  if 0.06 ≤ fakeprint_mean ∧ fakeprint_mean ≤ 0.10 then 15
  else if fakeprint_mean < 0.06 then fakeprint_mean * 250
  else if 0.10 < fakeprint_mean ∧ fakeprint_mean ≤ 0.12 then 10
  else max 0 (8 - (fakeprint_mean - 0.12) * 80)

/-- Scoring rule 4: fakeprint maximum. -/
def maxBucket (fakeprint_max : ℚ) : ℚ :=
  if fakeprint_max > 0.8 then 8
  else if fakeprint_max > 0.6 then 6
  else fakeprint_max * 10

/-- Scoring rule 5: 90th percentile. -/
def p90Bucket (fakeprint_p90 : ℚ) : ℚ :=
  if 0.12 ≤ fakeprint_p90 ∧ fakeprint_p90 ≤ 0.22 then 10
  else if fakeprint_p90 < 0.12 then fakeprint_p90 * 80
  else if 0.22 < fakeprint_p90 ∧ fakeprint_p90 ≤ 0.28 then 5
  else max 0 (3 - (fakeprint_p90 - 0.28) * 15)

/-- Scoring rule 6: spectral periodicity. -/
def periodicityBucket (periodicity_score : ℚ) : ℚ :=
  if periodicity_score > 0.5 then 12
  else if periodicity_score > 0.40 then 8
  else if periodicity_score > 0.30 then 4
  else if periodicity_score > 0.20 then 2
  else periodicity_score * 8

/-- Adjustment rule 1: kurtosis bonus. -/
def kurtosisBonus (fakeprint_kurtosis : ℚ) : ℚ :=
  if fakeprint_kurtosis > 15.0 then 20
  else if fakeprint_kurtosis > 10.0 then 15 + (fakeprint_kurtosis - 10) * 1.0
  else if fakeprint_kurtosis > 6.0 then 8 + (fakeprint_kurtosis - 6) * 1.75
  else if fakeprint_kurtosis > 4.0 then (fakeprint_kurtosis - 4) * 4
  else 0

/-- Adjustment rule 2: anomalous high-frequency-energy adjustment. -/
def hfAdjustment (high_freq_energy kurtosis_bonus peak_regularity_score : ℚ) : ℚ :=
  if high_freq_energy = 0.0 ∨ high_freq_energy < 0.0000001 then
    (if kurtosis_bonus > 10 ∨ peak_regularity_score > 0.5 then 10 else 3)
  else if high_freq_energy < 0.00001 then 2
  else if high_freq_energy < 0.00005 then -3
  else 0

/-- Adjustment rule 3: the combined kurtosis + low-HF + regularity pattern. -/
def combinedIndicator (fakeprint_kurtosis high_freq_energy peak_regularity_score : ℚ) :
    Prop :=
  5.0 < fakeprint_kurtosis ∧ fakeprint_kurtosis < 10.0 ∧
    high_freq_energy < 0.00005 ∧ peak_regularity_score > 0.3

instance (k h r : ℚ) : Decidable (combinedIndicator k h r) := by
  unfold combinedIndicator
  infer_instance

/-- The pre-clip sum of all scoring rules and adjustments. -/
def rawScore (fp : List ℚ) (hfe fp_std sp_std : ℚ) : ℚ :=
  let peak_count_high := (idxWhere (fun v => v > 0.5) fp).length
  let peak_count_medium := (idxWhere (fun v => v > 0.3) fp).length
  let peak_regularity_score := (regularityBlock (idxWhere (fun v => v > 0.3) fp) sp_std).1
  let fakeprint_kurtosis := kurtosisOf fp fp_std
  let kb := kurtosisBonus fakeprint_kurtosis
  peakCountBucket peak_count_medium peak_regularity_score +
    strongPeakBucket peak_count_high +
    meanBucket (listMean fp) +
    maxBucket (listMax fp) +
    p90Bucket (percentile fp 90) +
    periodicityBucket (periodicityOf fp) +
    peak_regularity_score * 20 +
    kb +
    hfAdjustment hfe kb peak_regularity_score +
    (if combinedIndicator fakeprint_kurtosis hfe peak_regularity_score then 15 else 0) +
    (if peak_count_medium > 50 ∧ peak_regularity_score > 0.6 then 5 else 0)

/-- The final score: `max(0.0, min(score, 100.0))`. -/
def scoreOf (fp : List ℚ) (hfe fp_std sp_std : ℚ) : ℚ :=
  max 0 (min (rawScore fp hfe fp_std sp_std) 100)

/-- The `details` audit record returned by `_compute_heuristic_prediction`
(exactly the keys of the Python dict). -/
structure ScoreDetail where
  peak_count_high : ℕ
  peak_count_medium : ℕ
  peak_count_low : ℕ
  peak_density_high : ℚ
  peak_density_medium : ℚ
  peak_density_low : ℚ
  peak_regularity_score : ℚ
  peak_spacing_variance : ℚ
  peak_spacing_cv : ℚ
  fakeprint_mean : ℚ
  fakeprint_max : ℚ
  fakeprint_std : ℚ
  fakeprint_kurtosis : ℚ
  periodicity_score : ℚ
  high_freq_energy : ℚ
  high_freq_ratio : ℚ
  kurtosis_bonus : ℚ
  hf_adjustment : ℚ
  combined_ia_indicator : Bool
  combined_bonus : ℚ
  score : ℚ
deriving DecidableEq, Repr

/-- The top-level result dict of `_compute_heuristic_prediction`. -/
structure HeurResult where
  is_ai_generated : Bool
  confidence : ℚ
  ai_probability : ℚ
  human_probability : ℚ
  details : ScoreDetail
deriving DecidableEq, Repr

/-- All fields of the `details` dict, each computed as in the source. -/
def scoreDetailOf (fp : List ℚ) (hfe fp_std sp_std : ℚ) : ScoreDetail :=
  let peaks_medium := idxWhere (fun v => v > 0.3) fp
  let reg := regularityBlock peaks_medium sp_std
  let fakeprint_kurtosis := kurtosisOf fp fp_std
  let kb := kurtosisBonus fakeprint_kurtosis
  { peak_count_high := (idxWhere (fun v => v > 0.5) fp).length
    peak_count_medium := peaks_medium.length
    peak_count_low := (idxWhere (fun v => v > 0.1) fp).length
    peak_density_high :=
      if fp.length > 0 then ((idxWhere (fun v => v > 0.5) fp).length : ℚ) / fp.length else 0
    peak_density_medium :=
      if fp.length > 0 then (peaks_medium.length : ℚ) / fp.length else 0
    peak_density_low :=
      if fp.length > 0 then ((idxWhere (fun v => v > 0.1) fp).length : ℚ) / fp.length else 0
    peak_regularity_score := reg.1
    peak_spacing_variance := reg.2.1
    peak_spacing_cv := reg.2.2
    fakeprint_mean := listMean fp
    fakeprint_max := listMax fp
    fakeprint_std := fp_std
    fakeprint_kurtosis := fakeprint_kurtosis
    periodicity_score := periodicityOf fp
    high_freq_energy := hfe
    high_freq_ratio := hfe / ((fp.map (fun v => v ^ 2)).sum + 1e-10)
    kurtosis_bonus := kb
    hf_adjustment := hfAdjustment hfe kb reg.1
    combined_ia_indicator := decide (combinedIndicator fakeprint_kurtosis hfe reg.1)
    combined_bonus := if combinedIndicator fakeprint_kurtosis hfe reg.1 then 15 else 0
    score := scoreOf fp hfe fp_std sp_std }

/-- `AIDetector._compute_heuristic_prediction` over rationals.
`fp_std` and `sp_std` stand for the code's two `np.std` computations
(the only irrational operations), passed as explicit parameters. -/
def compute_heuristic_prediction (fp : List ℚ) (hfe fp_std sp_std : ℚ) : HeurResult :=
  let d := scoreDetailOf fp hfe fp_std sp_std
  let ai_probability := max 0 (min d.score 100)
  { is_ai_generated := decide (ai_probability > 50)
    confidence := |ai_probability - 50| / 50
    ai_probability := ai_probability
    human_probability := 100 - ai_probability
    details := d }

/-- The result contract of §4.5: score in `[0,100]`, verdict iff score over 50,
confidence `|score − 50| / 50` in `[0,1]`, probabilities derived from score. -/
def resultContractOK (r : HeurResult) : Prop :=
  0 ≤ r.details.score ∧ r.details.score ≤ 100 ∧
  (r.is_ai_generated = true ↔ 50 < r.details.score) ∧
  r.confidence = |r.details.score - 50| / 50 ∧
  0 ≤ r.confidence ∧ r.confidence ≤ 1 ∧
  r.ai_probability = r.details.score ∧
  r.human_probability = 100 - r.details.score

/-- C5: every heuristic result satisfies the §4.5 contract: score in `[0,100]`,
`is_ai_generated ↔ score > 50`, `confidence = |score − 50|/50 ∈ [0,1]`,
`ai_probability = score`, `human_probability = 100 − score`. -/
theorem heuristic_result_contract (fp : List ℚ) (hfe fp_std sp_std : ℚ)
    (_hfp : fp ≠ []) :
    resultContractOK (compute_heuristic_prediction fp hfe fp_std sp_std) := by
  have hs0 : (0 : ℚ) ≤ scoreOf fp hfe fp_std sp_std := le_max_left 0 _
  have hs100 : scoreOf fp hfe fp_std sp_std ≤ 100 :=
    max_le (by norm_num) (min_le_right _ _)
  set s := scoreOf fp hfe fp_std sp_std with hsdef
  have hai : max 0 (min s 100) = s := by
    rw [min_eq_left hs100, max_eq_right hs0]
  have hdscore : (compute_heuristic_prediction fp hfe fp_std sp_std).details.score = s := rfl
  have haieq : (compute_heuristic_prediction fp hfe fp_std sp_std).ai_probability = s := by
    show max 0 (min s 100) = s
    exact hai
  have hconf : (compute_heuristic_prediction fp hfe fp_std sp_std).confidence
      = |s - 50| / 50 := by
    show |max 0 (min s 100) - 50| / 50 = |s - 50| / 50
    rw [hai]
  have hisai : (compute_heuristic_prediction fp hfe fp_std sp_std).is_ai_generated
      = decide (max 0 (min s 100) > 50) := rfl
  have hhuman : (compute_heuristic_prediction fp hfe fp_std sp_std).human_probability
      = 100 - max 0 (min s 100) := rfl
  unfold resultContractOK
  rw [hdscore, haieq, hconf, hisai, hhuman, hai]
  refine ⟨hs0, hs100, ?_, rfl, ?_, ?_, rfl, rfl⟩
  · constructor
    · intro h
      exact of_decide_eq_true h
    · intro h
      exact decide_eq_true h
  · positivity
  · rw [div_le_one (by norm_num)]
    rw [abs_le]
    constructor <;> linarith

/-- Witness for `heuristic_result_contract` at the one-sample fakeprint `[0]`. -/
theorem heuristic_result_contract_witness :
    ([(0 : ℚ)] ≠ []) ∧ resultContractOK (compute_heuristic_prediction [(0 : ℚ)] 0 0 0) :=
  ⟨by simp, heuristic_result_contract [(0 : ℚ)] 0 0 0 (by simp)⟩

/-- C9: the heuristic path is a pure function of the fakeprint and the
auxiliary feature values: equal inputs give identical results, `details`
audit record included. -/
theorem heuristic_deterministic (fp1 fp2 : List ℚ) (h1 h2 s1 s2 t1 t2 : ℚ)
    (hfp : fp1 = fp2) (hh : h1 = h2) (hs : s1 = s2) (ht : t1 = t2) :
    compute_heuristic_prediction fp1 h1 s1 t1 =
      compute_heuristic_prediction fp2 h2 s2 t2 := by
  rw [hfp, hh, hs, ht]

/-- Witness for `heuristic_deterministic` at a concrete input. -/
theorem heuristic_deterministic_witness :
    compute_heuristic_prediction [(1 : ℚ)] 2 3 4 =
      compute_heuristic_prediction [(1 : ℚ)] 2 3 4 :=
  heuristic_deterministic [(1 : ℚ)] [(1 : ℚ)] 2 2 3 3 4 4 rfl rfl rfl rfl

theorem regularitySchedule_antitone (a b : ℚ) (hab : a ≤ b) :
    regularitySchedule b ≤ regularitySchedule a := by
  unfold regularitySchedule
  split_ifs <;>
    first
      | linarith
      | exact max_le_max le_rfl (by linarith)
      | exact max_le (by linarith) (by linarith)

/-- C6: the regularity score is a non-increasing piecewise function of `cv`
matching the four-row schedule of §4.4 (checked on each branch and at the
boundary values `0.3`, `0.5`, `0.7`), and the recorded regularity score is `0`
whenever the medium-threshold peak count is at most `3`. -/
theorem regularity_schedule_props :
    (∀ a b : ℚ, a ≤ b → regularitySchedule b ≤ regularitySchedule a) ∧
    (∀ cv : ℚ, cv < 0.3 → regularitySchedule cv = 0.8 + (0.3 - cv) * 0.67) ∧
    (∀ cv : ℚ, 0.3 ≤ cv → cv < 0.5 → regularitySchedule cv = 0.5 + (0.5 - cv) * 1.5) ∧
    (∀ cv : ℚ, 0.5 ≤ cv → cv < 0.7 → regularitySchedule cv = 0.3 + (0.7 - cv) * 1.0) ∧
    (∀ cv : ℚ, 0.7 ≤ cv → regularitySchedule cv = max 0 (0.3 - (cv - 0.7) * 0.5)) ∧
    regularitySchedule 0.3 = 0.8 ∧
    regularitySchedule 0.5 = 0.5 ∧
    regularitySchedule 0.7 = 0.3 ∧
    (∀ (fp : List ℚ) (hfe fp_std sp_std : ℚ),
      (idxWhere (fun v => v > 0.3) fp).length ≤ 3 →
      (compute_heuristic_prediction fp hfe fp_std sp_std).details.peak_regularity_score
        = 0) := by
  refine ⟨regularitySchedule_antitone, ?_, ?_, ?_, ?_, ?_, ?_, ?_, ?_⟩
  · intro cv h
    unfold regularitySchedule
    rw [if_pos h]
  · intro cv h1 h2
    unfold regularitySchedule
    rw [if_neg (not_lt.mpr h1), if_pos h2]
  · intro cv h1 h2
    unfold regularitySchedule
    rw [if_neg (by linarith : ¬ cv < 0.3), if_neg (not_lt.mpr h1), if_pos h2]
  · intro cv h1
    unfold regularitySchedule
    rw [if_neg (by linarith : ¬ cv < 0.3), if_neg (by linarith : ¬ cv < 0.5),
      if_neg (not_lt.mpr h1)]
  · norm_num [regularitySchedule]
  · norm_num [regularitySchedule]
  · norm_num [regularitySchedule]
  · intro fp hfe fp_std sp_std hle
    show (regularityBlock (idxWhere (fun v => v > 0.3) fp) sp_std).1 = 0
    unfold regularityBlock
    rw [if_neg (by omega)]

/-- Witness for `regularity_schedule_props` at concrete cv values and the
one-sample fakeprint `[0]` (zero medium peaks). -/
theorem regularity_schedule_witness :
    regularitySchedule 0.6 ≤ regularitySchedule 0.2 ∧
    regularitySchedule 0.1 = 0.8 + (0.3 - 0.1) * 0.67 ∧
    (compute_heuristic_prediction [(0 : ℚ)] 0 0 0).details.peak_regularity_score = 0 :=
  ⟨regularity_schedule_props.1 0.2 0.6 (by norm_num),
   regularity_schedule_props.2.1 0.1 (by norm_num),
   regularity_schedule_props.2.2.2.2.2.2.2.2 [(0 : ℚ)] 0 0 0 (by norm_num [idxWhere])⟩

/-- Kurtosis-like statistic transcribed from the spec text of §4.4:
`mean((x − mean)^4) / (std^4 + 1e-10)`, with no −3 excess-kurtosis offset. -/
def specKurtosisFormula (x : List ℚ) (std : ℚ) : ℚ :=
  listMean (x.map (fun v => (v - listMean x) ^ 4)) / (std ^ 4 + 1e-10)

/-- C8: the kurtosis statistic recorded by the feature extractor equals the
spec formula exactly (no −3 offset), and its denominator is strictly positive,
so the rational model is total (the code additionally maps a non-finite float
result to 0 via `nan_to_num`). -/
theorem kurtosis_matches_spec (fp : List ℚ) (hfe fp_std sp_std : ℚ) :
    (compute_heuristic_prediction fp hfe fp_std sp_std).details.fakeprint_kurtosis =
      specKurtosisFormula fp fp_std ∧
    0 < fp_std ^ 4 + 1e-10 := by
  refine ⟨rfl, ?_⟩
  have h4 : 0 ≤ fp_std ^ 4 := by positivity
  have he : (0 : ℚ) < 1e-10 := by norm_num
  linarith

/-- One entry of the `/api/batch-analyze` result list: the filename plus
either a success payload or an error message, tagged by `status`. -/
structure BatchItem (α : Type) where
  filename : String
  status : String
  error : Option String
  data : Option α
deriving DecidableEq, Repr

/-- `allowed_file` from `app.py`: a dot in the name, and the lowercased text
after the last dot (`filename.rsplit(".", 1)[1].lower()`) contained in the
allowed-extension set. -/
def allowed_file (exts : List String) (filename : String) : Bool :=
  filename.toList.contains '.' &&
    exts.contains
      (((filename.toList.reverse.takeWhile (fun c => c != '.')).reverse.map
        Char.toLower).asString)

/-- The entry built for one kept file: the try-block outcome tagged with
`status = "success"` or `status = "error"`. -/
def batchEntry {α : Type} (secure : String → String)
    (f : String × Except String α) : BatchItem α :=
  match f.2 with
  | Except.ok r => ⟨secure f.1, "success", none, some r⟩
  | Except.error e => ⟨secure f.1, "error", some e, none⟩

/-- Per-file body of the `batch_analyze` loop.  Files with an empty or
disallowed filename are skipped (`continue`, modelled as `none`); otherwise
the try-block outcome (save + predict) becomes a success entry or, when it
raises, an error entry with the exception message. -/
def processFile {α : Type} (secure : String → String) (exts : List String)
    (f : String × Except String α) : Option (BatchItem α) :=
  if f.1 == "" || !allowed_file exts f.1 then none
  else
    let filename := secure f.1
    match f.2 with
    | Except.ok r => some ⟨filename, "success", none, some r⟩
    | Except.error e => some ⟨filename, "error", some e, none⟩

/-- The sequential result list built by the `batch_analyze` loop. -/
def batchResults {α : Type} (secure : String → String) (exts : List String)
    (files : List (String × Except String α)) : List (BatchItem α) :=
  files.filterMap (processFile secure exts)

/-- The `/api/batch-analyze` endpoint: a 400 error response when no files were
posted, otherwise 200 with `status`, `total = len(results)` and the results. -/
def batch_analyze {α : Type} (secure : String → String) (exts : List String)
    (files : List (String × Except String α)) :
    Except (String × ℕ) (String × ℕ × List (BatchItem α)) :=
  if files.isEmpty then Except.error ("No se encontraron archivos", 400)
  else
    Except.ok ("success", (batchResults secure exts files).length,
      batchResults secure exts files)

theorem batchResults_eq {α : Type} (secure : String → String) (exts : List String)
    (files : List (String × Except String α)) :
    batchResults secure exts files =
      (files.filter (fun f => !(f.1 == "") && allowed_file exts f.1)).map
        (batchEntry secure) := by
  induction files with
  | nil => rfl
  | cons f fs ih =>
    obtain ⟨name, outcome⟩ := f
    unfold batchResults at ih ⊢
    rw [List.filterMap_cons, List.filter_cons]
    by_cases h1 : name == ""
    · have hp : processFile secure exts (name, outcome) = none := by
        unfold processFile
        simp [h1]
      rw [hp, ih]
      simp [h1]
    · by_cases h2 : allowed_file exts name
      · cases outcome with
        | ok r =>
          have hp : processFile secure exts (name, Except.ok r) =
              some ⟨secure name, "success", none, some r⟩ := by
            unfold processFile
            simp [h1, h2]
          rw [hp, ih]
          simp [h1, h2, batchEntry]
        | error e =>
          have hp : processFile secure exts (name, (Except.error e : Except String α)) =
              some ⟨secure name, "error", some e, (none : Option α)⟩ := by
            unfold processFile
            simp [h1, h2]
          rw [hp, ih]
          simp [h1, h2, batchEntry]
      · have hp : processFile secure exts (name, outcome) = none := by
          unfold processFile
          simp [h1, h2]
        rw [hp, ih]
        simp [h1, h2]

theorem batchItem_shape {α : Type} (secure : String → String) (exts : List String)
    (files : List (String × Except String α)) :
    ∀ item ∈ batchResults secure exts files,
      (item.status = "success" ∧ item.error = none) ∨
      (item.status = "error" ∧ item.data = none) := by
  intro item hitem
  rw [batchResults_eq] at hitem
  obtain ⟨f, _, rfl⟩ := List.mem_map.mp hitem
  unfold batchEntry
  cases f.2 with
  | ok r => left; exact ⟨rfl, rfl⟩
  | error e => right; exact ⟨rfl, rfl⟩

/-- C7 (claim as stated is false; the nearby truth): the result list has one
entry, in order, per input file whose filename is non-empty and has an allowed
extension (others are silently skipped); each entry is a success entry or an
error entry, so one failing item never aborts the rest; the reported total is
the length of the result list; and in the batch of three valid files whose
second is corrupt, the list has length 3 with statuses success/error/success. -/
theorem batch_contract_amended :
    (∀ (secure : String → String) (exts : List String)
        (files : List (String × Except String ℚ)), files ≠ [] →
      batch_analyze secure exts files =
        Except.ok ("success", (batchResults secure exts files).length,
          batchResults secure exts files) ∧
      batchResults secure exts files =
        (files.filter (fun f => !(f.1 == "") && allowed_file exts f.1)).map
          (batchEntry secure) ∧
      (∀ item ∈ batchResults secure exts files,
        (item.status = "success" ∧ item.error = none) ∨
        (item.status = "error" ∧ item.data = none))) ∧
    batchResults (α := ℚ) id ["mp3"]
        [("a.mp3", Except.ok 1), ("b.mp3", Except.error "corrupt"),
         ("c.mp3", Except.ok 2)] =
      [⟨"a.mp3", "success", none, some 1⟩,
       ⟨"b.mp3", "error", some "corrupt", none⟩,
       ⟨"c.mp3", "success", none, some 2⟩] := by
  constructor
  · intro secure exts files hne
    refine ⟨?_, batchResults_eq secure exts files, batchItem_shape secure exts files⟩
    cases files with
    | nil => cases hne rfl
    | cons f fs => rfl
  · decide

/-- Witness for `batch_contract_amended` at the three-file batch of Scenario D. -/
theorem batch_contract_witness :
    batch_analyze (α := ℚ) id ["mp3"]
        [("a.mp3", Except.ok 1), ("b.mp3", Except.error "corrupt"),
         ("c.mp3", Except.ok 2)] =
      Except.ok ("success",
        (batchResults (α := ℚ) id ["mp3"]
          [("a.mp3", Except.ok 1), ("b.mp3", Except.error "corrupt"),
           ("c.mp3", Except.ok 2)]).length,
        batchResults (α := ℚ) id ["mp3"]
          [("a.mp3", Except.ok 1), ("b.mp3", Except.error "corrupt"),
           ("c.mp3", Except.ok 2)]) ∧
    (batchResults (α := ℚ) id ["mp3"]
        [("a.mp3", Except.ok 1), ("b.mp3", Except.error "corrupt"),
         ("c.mp3", Except.ok 2)]).length = 3 :=
  ⟨(batch_contract_amended.1 id ["mp3"] _ (by simp)).1,
   by rw [batch_contract_amended.2]; rfl⟩

/-- C7 counterexample: a one-file batch whose filename is empty produces an
empty result list, refuting "one entry per input file". -/
theorem batch_entry_per_file_counterexample :
    (batchResults (α := ℚ) id ["mp3"] [("", Except.ok 0)]).length = 0 ∧
    ([("", Except.ok (0 : ℚ))] : List (String × Except String ℚ)).length = 1 ∧
    (0 : ℕ) ≠ 1 :=
  ⟨rfl, rfl, by decide⟩

/-- Facade state of `AIDetector`: the optional model and the trained flag. -/
structure DetectorState (M : Type) where
  model : Option M
  is_trained : Bool
deriving DecidableEq, Repr

/-- `AIDetector.load_model`: `loaded` is the `pickle.load` outcome (value or
raised exception); an exception propagates, a value is stored with the
trained flag set. -/
def load_model {M : Type} (st : DetectorState M) (loaded : Except String M) :
    Except String (DetectorState M) :=
  match loaded with
  | Except.error e => Except.error e
  | Except.ok m => Except.ok { st with model := some m, is_trained := true }

/-- `AIDetector.__init__`: `fs p = none` models `os.path.exists(p) = False`;
`fs p = some c` gives the pickle-load outcome for the file at `p`.  A falsy
(`None` or empty) path skips loading; an exception escaping `load_model`
propagates out of the constructor. -/
def detector_init {M : Type} (model_path : Option String)
    (fs : String → Option (Except String M)) : Except String (DetectorState M) :=
  let st : DetectorState M := { model := none, is_trained := false }
  match model_path with
  | none => Except.ok st
  | some p =>
    if p = "" then Except.ok st
    else
      match fs p with
      | none => Except.ok st
      | some loaded =>
        match load_model st loaded with
        | Except.error e => Except.error e
        | Except.ok st2 => Except.ok { st2 with is_trained := true }

/-- C2 (claim as stated is false; the nearby truth): no configured path or a
missing model file leaves the facade Untrained without crashing, and a valid
model file yields the Trained facade — but a corrupt model file makes the
pickle exception propagate out of the constructor instead of falling back to
Untrained. -/
theorem model_loading_amended :
    (∀ (M : Type) (fs : String → Option (Except String M)),
      detector_init none fs = Except.ok ⟨none, false⟩) ∧
    (∀ (M : Type) (p : String) (fs : String → Option (Except String M)),
      p ≠ "" → fs p = none → detector_init (some p) fs = Except.ok ⟨none, false⟩) ∧
    (∀ (M : Type) (p : String) (fs : String → Option (Except String M)) (e : String),
      p ≠ "" → fs p = some (Except.error e) →
      detector_init (some p) fs = Except.error e) ∧
    (∀ (M : Type) (p : String) (fs : String → Option (Except String M)) (m : M),
      p ≠ "" → fs p = some (Except.ok m) →
      detector_init (some p) fs = Except.ok ⟨some m, true⟩) := by
  refine ⟨fun M fs => rfl, ?_, ?_, ?_⟩
  · intro M p fs hp hfs
    simp only [detector_init]
    rw [if_neg hp, hfs]
  · intro M p fs e hp hfs
    simp only [detector_init]
    rw [if_neg hp, hfs]
    rfl
  · intro M p fs m hp hfs
    simp only [detector_init]
    rw [if_neg hp, hfs]
    rfl

/-- Witness for `model_loading_amended` at a concrete path and store. -/
theorem model_loading_witness :
    detector_init (M := Unit) (some "detector.pkl") (fun _ => none) =
      Except.ok ⟨none, false⟩ ∧
    detector_init (M := Unit) (some "detector.pkl")
      (fun _ => some (Except.error "bad pickle")) = Except.error "bad pickle" :=
  ⟨model_loading_amended.2.1 Unit "detector.pkl" (fun _ => none) (by decide) rfl,
   model_loading_amended.2.2.1 Unit "detector.pkl"
     (fun _ => some (Except.error "bad pickle")) "bad pickle" (by decide) rfl⟩

/-- C2 counterexample: loading a corrupt model file crashes the constructor
(the pickle exception propagates) instead of leaving the facade Untrained. -/
theorem corrupt_model_crashes_counterexample :
    detector_init (M := Unit) (some "detector.pkl")
      (fun _ => some (Except.error "corrupt")) = Except.error "corrupt" := rfl

end Detector
